import Mathlib

/-!
Verification of the automata search system (searchsystem.cpp).

The development embeds the algorithmic core of the program: the chain NFA
builder `regexToNFA`, the powerset NFA simulator `NFA.simulate`, the
subset-construction converter `nfaToDFA`, the single-state DFA simulator
`DFA.simulate`, the edit-distance approximate matcher `approximateMatch`,
and the stack-based recognizer `PDA.simulate` for equal runs of two symbols.

C++ `std::set` values are embedded as strictly increasing lists and
`std::map` values as key-sorted association lists, so that container
equality in the source corresponds to list equality here.  `std::map`'s
`operator[]` default-inserts a value at a missing key even when used for
reading; the embedding models that faithfully (`mapOpIndex` returns the
possibly grown map), because the simulators and the converter use it for
lookups and therefore can grow the transition map of the automaton.
-/

namespace SearchSystem

/-- Insert into a strictly increasing list, mirroring `std::set::insert`. -/
def setInsert {α : Type} [LinearOrder α] (x : α) : List α → List α
  | [] => [x]
  | y :: ys => if x < y then x :: y :: ys else if x = y then y :: ys else y :: setInsert x ys

/-- Membership test, mirroring `std::set::count`. -/
def setMem {α : Type} [DecidableEq α] (x : α) : List α → Bool
  | [] => false
  | y :: ys => if x = y then true else setMem x ys

/-- Insert every element of the second list, mirroring `std::set::insert(first, last)`. -/
def setUnionN {α : Type} [LinearOrder α] (xs ys : List α) : List α :=
  ys.foldl (fun acc y => setInsert y acc) xs

/-- Lookup, mirroring `std::map::find` / `std::map::count`. -/
def mapFind {κ : Type} {β : Type} [DecidableEq κ] (k : κ) : List (κ × β) → Option β
  | [] => none
  | e :: rest => if k = e.1 then some e.2 else mapFind k rest

/-- Read access mirroring `std::map::operator[]`: return the stored value,
default-inserting `d` when the key is absent; the possibly grown map is
returned alongside the value. -/
def mapOpIndex {κ : Type} {β : Type} [LinearOrder κ] (k : κ) (d : β) :
    List (κ × β) → β × List (κ × β)
  | [] => (d, [(k, d)])
  | e :: rest =>
    if k < e.1 then (d, (k, d) :: e :: rest)
    else if k = e.1 then (e.2, e :: rest)
    else
      let r := mapOpIndex k d rest
      (r.1, e :: r.2)

/-- Write access mirroring `m[k] = f(m[k])`: apply `f` to the stored value,
or to the default-constructed value `d` when the key is absent. -/
def mapUpdate {κ : Type} {β : Type} [LinearOrder κ] (k : κ) (f : β → β) (d : β) :
    List (κ × β) → List (κ × β)
  | [] => [(k, f d)]
  | e :: rest =>
    if k < e.1 then (k, f d) :: e :: rest
    else if k = e.1 then (e.1, f e.2) :: rest
    else e :: mapUpdate k f d rest

/-- Transition map of an NFA: state to (symbol to set of successor states). -/
abbrev TransMap := List (ℕ × List (Char × List ℕ))

/-- Transition map of a DFA: state to (symbol to successor state). -/
abbrev DTransMap := List (ℕ × List (Char × ℕ))

/-- The NFA record of the source. -/
structure NFA where
  states : List ℕ
  alphabet : List Char
  transitions : TransMap
  startState : ℕ
  finalStates : List ℕ

/-- The DFA record of the source. -/
structure DFA where
  states : List ℕ
  alphabet : List Char
  transitions : DTransMap
  startState : ℕ
  finalStates : List ℕ

/-- NFA.addTransition: `transitions[from][symbol].insert(to)`. -/
def addTransition (tr : TransMap) (frm : ℕ) (symbol : Char) (dst : ℕ) : TransMap :=
  mapUpdate frm (fun inner => mapUpdate symbol (fun tos => setInsert dst tos) [] inner) [] tr

/-- One step of the powerset walk: the union of `transitions[s][c]` over all
active states `s`, threading the transition map through the `operator[]`
reads.  The same loop body is used by `NFA::simulate` and by the inner loop
of `nfaToDFA`. -/
def nfaStepBody (c : Char) (acc : List ℕ × TransMap) (s : ℕ) : List ℕ × TransMap :=
  let r := mapOpIndex s ([] : List (Char × List ℕ)) acc.2
  match mapFind c r.1 with
  | some tos => (setUnionN acc.1 tos, r.2)
  | none => (acc.1, r.2)

def nfaStep (tr : TransMap) (current : List ℕ) (c : Char) : List ℕ × TransMap :=
  current.foldl (nfaStepBody c) ([], tr)

/-- Loop of `NFA::simulate`: advance the active set per input symbol,
returning reject as soon as the active set becomes empty, and on exhausted
input accept iff some active state is final. -/
def nfaSimGo (finals : List ℕ) : TransMap → List ℕ → List Char → Bool × TransMap
  | tr, current, [] => (current.any (fun s => setMem s finals), tr)
  | tr, current, c :: rest =>
    let r := nfaStep tr current c
    if r.1 = [] then (false, r.2) else nfaSimGo finals r.2 r.1 rest

/-- NFA::simulate.  The boolean result is paired with the automaton as it is
after the call, since the `operator[]` reads may have grown `transitions`. -/
def NFA.simulate (nfa : NFA) (input : List Char) : Bool × NFA :=
  let r := nfaSimGo nfa.finalStates nfa.transitions [nfa.startState] input
  (r.1, { nfa with transitions := r.2 })

/-- Boolean acceptance by the NFA simulator (section 6 of the spec). -/
def nfaAccepts (nfa : NFA) (input : List Char) : Bool := (nfa.simulate input).1

/-- Loop of `regexToNFA`.  The source keeps a separate counter `next`,
always equal to `last + 1`. -/
def buildLoop : NFA → ℕ → List Char → NFA × ℕ
  | nfa, last, [] => (nfa, last)
  | nfa, last, c :: rest =>
    buildLoop
      { nfa with
        transitions := addTransition nfa.transitions last c (last + 1)
        states := setInsert (last + 1) nfa.states
        alphabet := setInsert c nfa.alphabet }
      (last + 1) rest

/-- regexToNFA: chain automaton for a literal pattern. -/
def regexToNFA (pattern : List Char) : NFA :=
  let r := buildLoop
    { states := [0], alphabet := [], transitions := [], startState := 0, finalStates := [] }
    0 pattern
  { r.1 with finalStates := setInsert r.2 r.1.finalStates }

/-- Loop of `DFA::simulate`: follow one transition per symbol; a missing
entry is an immediate reject. -/
def dfaSimGo (finals : List ℕ) : DTransMap → ℕ → List Char → Bool × DTransMap
  | tr, current, [] => (setMem current finals, tr)
  | tr, current, c :: rest =>
    let r := mapOpIndex current ([] : List (Char × ℕ)) tr
    match mapFind c r.1 with
    | none => (false, r.2)
    | some nxt => dfaSimGo finals r.2 nxt rest

/-- DFA::simulate, pairing the result with the automaton after the call. -/
def DFA.simulate (dfa : DFA) (input : List Char) : Bool × DFA :=
  let r := dfaSimGo dfa.finalStates dfa.transitions dfa.startState input
  (r.1, { dfa with transitions := r.2 })

/-- Boolean acceptance by the DFA simulator (section 6 of the spec). -/
def dfaAccepts (dfa : DFA) (input : List Char) : Bool := (dfa.simulate input).1

/-- Working state of the subset construction: the subset-to-id map, the
work queue, the id counter, the DFA parts under construction, and the NFA
transition map (threaded because the construction reads it via
`operator[]`). -/
structure BFSState where
  idMap : List (List ℕ × ℕ)
  queue : List (List ℕ)
  nextId : ℕ
  dstates : List ℕ
  dtrans : DTransMap
  dfinals : List ℕ
  ntrans : TransMap

/-- DFA transition write `dfa.transitions[cid][c] = v`. -/
def dfaAssign (tr : DTransMap) (cid : ℕ) (c : Char) (v : ℕ) : DTransMap :=
  mapUpdate cid (fun inner => mapUpdate c (fun _ => v) 0 inner) [] tr

/-- Body of the per-symbol loop of `nfaToDFA`: compute the successor subset,
skip it when empty, assign a fresh id and enqueue it when new, and record
the DFA transition. -/
def bfsChar (cur : List ℕ) (cid : ℕ) (st : BFSState) (c : Char) : BFSState :=
  let r := nfaStep st.ntrans cur c
  if r.1 = [] then { st with ntrans := r.2 }
  else
    let st1 := { st with ntrans := r.2 }
    let st2 :=
      match mapFind r.1 st1.idMap with
      | some _ => st1
      | none =>
        { st1 with
          idMap := st1.idMap ++ [(r.1, st1.nextId)]
          nextId := st1.nextId + 1
          queue := st1.queue ++ [r.1] }
    { st2 with dtrans := dfaAssign st2.dtrans cid c ((mapFind r.1 st2.idMap).getD 0) }

/-- Body of the while loop of `nfaToDFA`, for one dequeued subset. -/
def bfsProcess (alphabet : List Char) (finals : List ℕ) (cur : List ℕ) (st : BFSState) :
    BFSState :=
  let cid := (mapFind cur st.idMap).getD 0
  let st1 := { st with dstates := setInsert cid st.dstates }
  let st2 := alphabet.foldl (fun s c => bfsChar cur cid s c) st1
  if cur.any (fun s => setMem s finals) then { st2 with dfinals := setInsert cid st2.dfinals }
  else st2

/-- While loop of `nfaToDFA`.  The fuel argument only serves Lean's
termination checking; `nfaToDFA` passes `2 ^ |states|`, the spec's bound on
the number of distinct reachable subsets, which exceeds the number of loop
iterations actually performed on the automata of this program. -/
def bfsLoop (alphabet : List Char) (finals : List ℕ) : ℕ → BFSState → BFSState
  | 0, st => st
  | fuel + 1, st =>
    match st.queue with
    | [] => st
    | cur :: rest => bfsLoop alphabet finals fuel (bfsProcess alphabet finals cur { st with queue := rest })

/-- nfaToDFA: subset construction.  Returns the DFA together with the NFA
as it is after the call (the source passes the NFA by non-const reference
and reads its transition map via `operator[]`). -/
def nfaToDFA (nfa : NFA) : DFA × NFA :=
  let st0 : BFSState :=
    { idMap := [([nfa.startState], 0)], queue := [[nfa.startState]], nextId := 1,
      dstates := [], dtrans := [], dfinals := [], ntrans := nfa.transitions }
  let stF := bfsLoop nfa.alphabet nfa.finalStates (2 ^ nfa.states.length) st0
  ({ states := stF.dstates, alphabet := nfa.alphabet, transitions := stF.dtrans,
     startState := 0, finalStates := stF.dfinals },
   { nfa with transitions := stF.ntrans })

/-- The DFA produced by the converter (section 6 of the spec: `toDFA`). -/
def toDFA (nfa : NFA) : DFA := (nfaToDFA nfa).1

/-- Inner loop of `approximateMatch`, computing entries 1..m of row i from
row i-1 (`prev` positioned at column j, `diag` = prev row entry at j-1,
`left` = current row entry at j-1). -/
def nextRowGo (t : Char) : List Char → List ℕ → ℕ → ℕ → List ℕ
  | [], _, _, _ => []
  | p :: ps, prev, diag, left =>
    let up := prev.headD 0
    let cur := if t = p then diag else 1 + min up (min left diag)
    cur :: nextRowGo t ps prev.tail up cur

/-- Row i of the table of `approximateMatch`, from row i-1 and text symbol
`t` = text[i-1]; entry 0 is `dp[i][0] = 0`. -/
def nextRow (t : Char) (pattern : List Char) (prev : List ℕ) : List ℕ :=
  0 :: nextRowGo t pattern prev.tail (prev.headD 0) 0

/-- All rows of the table of `approximateMatch`, starting from a given
row 0. -/
def dpRows (pattern : List Char) : List ℕ → List Char → List (List ℕ)
  | prev, [] => [prev]
  | prev, t :: ts => prev :: dpRows pattern (nextRow t pattern prev) ts

/-- approximateMatch: bounded edit-distance substring test.  Row 0 is
`[0, 1, ..., m]`; the final scan checks `dp[i][m] <= maxErrors` for
`i = m..n`.  `maxErrors` is a C++ `int`, embedded as an integer. -/
def approximateMatch (text pattern : List Char) (maxErrors : ℤ) : Bool :=
  let table := dpRows pattern (List.range (pattern.length + 1)) text
  (table.drop pattern.length).any
    (fun row => decide ((row.getD pattern.length 0 : ℤ) ≤ maxErrors))

/-- Pop phase of `PDA::simulate`: consume symbols while they equal 'b',
popping one marker each; a 'b' on an empty stack rejects, a non-'b' ends
the loop and the trailing check `i == n && stack empty` rejects. -/
def pdaPop : ℕ → List Char → Bool
  | st, [] => st == 0
  | st, c :: rest => if c = 'b' then (if st == 0 then false else pdaPop (st - 1) rest) else false

/-- Push phase of `PDA::simulate`: consume leading symbols equal to 'a',
pushing one marker each, then hand over to the pop phase. -/
def pdaPush : ℕ → List Char → Bool
  | st, [] => pdaPop st []
  | st, c :: rest => if c = 'a' then pdaPush (st + 1) rest else pdaPop st (c :: rest)

/-- PDA::simulate: recognizer for equal runs of 'a' then 'b'. -/
def PDA.simulate (input : List Char) : Bool := pdaPush 0 input

/-! Specification-side definitions, used to state the claims. -/

/-- Closed form of the chain NFA transition map: one entry per pattern
position, `off + i` stepping to `off + i + 1` on the i-th symbol. -/
def chainTrans (off : ℕ) : List Char → TransMap
  | [] => []
  | c :: rest => (off, [(c, [off + 1])]) :: chainTrans (off + 1) rest

/-- Closed form of the DFA transition map produced from a chain NFA. -/
def dchainTrans (off : ℕ) : List Char → DTransMap
  | [] => []
  | c :: rest => (off, [(c, off + 1)]) :: dchainTrans (off + 1) rest

/-- Closed form of the subset-to-id map of the construction on a chain NFA:
the singleton subsets `{0}..{k}` with ids `0..k`, in discovery order. -/
def idChain : ℕ → List (List ℕ × ℕ)
  | 0 => [([0], 0)]
  | k + 1 => idChain k ++ [([k + 1], k + 1)]

/-- Observable transition function of an NFA transition map: the recorded
successor set, empty when no entry is recorded. -/
def effTrans (tr : TransMap) (s : ℕ) (c : Char) : List ℕ :=
  (mapFind c ((mapFind s tr).getD [])).getD []

/-- Observable transition function of a DFA transition map: the recorded
successor, or none. -/
def effDTrans (tr : DTransMap) (s : ℕ) (c : Char) : Option ℕ :=
  mapFind c ((mapFind s tr).getD [])

/-- The DFA simulation contract of section 4.4 of the spec, as a recursion:
start at the given state, follow one looked-up transition per symbol, reject
immediately on a missing entry, and on exhausted input accept iff the
current state is final. -/
def dfaRunContract (f : ℕ → Char → Option ℕ) (finals : List ℕ) : ℕ → List Char → Bool
  | cur, [] => setMem cur finals
  | cur, c :: rest =>
    match f cur c with
    | none => false
    | some nxt => dfaRunContract f finals nxt rest

/-- The dynamic-programming table of section 4.5 of the spec, as a recursive
function: `dp 0 j = j`, `dp i 0 = 0`, and for `i, j ≥ 1` the
match/substitution/insertion/deletion recurrence.  Out-of-range symbol
accesses (never reached for `i ≤ |text|`, `j ≤ |pattern|`) default. -/
def dpSpec (text pattern : List Char) : ℕ → ℕ → ℕ
  | 0, j => j
  | _ + 1, 0 => 0
  | i + 1, j + 1 =>
    if text.getD i 'a' = pattern.getD j 'a' then dpSpec text pattern i j
    else 1 + min (dpSpec text pattern i j)
      (min (dpSpec text pattern (i + 1) j) (dpSpec text pattern i (j + 1)))
termination_by i j => i + j

/-- Row i of the specification table, as a list over columns 0..m. -/
def rowSpec (text pattern : List Char) (i : ℕ) : List ℕ :=
  (List.range (pattern.length + 1)).map (dpSpec text pattern i)

/-- Contiguous substring occurrence. -/
def isSubstring (pattern text : List Char) : Prop :=
  ∃ u v, text = u ++ pattern ++ v

/-- Pure powerset step over an observable transition function. -/
def nfaStepPure (f : ℕ → Char → List ℕ) (current : List ℕ) (c : Char) : List ℕ :=
  current.foldl (fun acc s => setUnionN acc (f s c)) []

/-- Pure powerset simulation over an observable transition function. -/
def nfaSimPure (f : ℕ → Char → List ℕ) (finals : List ℕ) : List ℕ → List Char → Bool
  | current, [] => current.any (fun s => setMem s finals)
  | current, c :: rest =>
    let nxt := nfaStepPure f current c
    if nxt = [] then false else nfaSimPure f finals nxt rest

/-- Keys of an association list are strictly increasing, which is the
representation invariant of every embedded `std::map` value. -/
def keysSorted {κ : Type} {β : Type} [LinearOrder κ] (m : List (κ × β)) : Prop :=
  List.Pairwise (fun e f => e.1 < f.1) m

/-- State of the subset construction on the chain NFA of pattern `p` at the
start of the loop iteration that processes the subset `[k]`: the singleton
subsets `{0}..{k}` are discovered with ids `0..k`, subset `[k]` is queued,
the DFA has states `0..k-1` with the first `k` chain transitions, and no
final id yet. -/
def chainState (p : List Char) (k : ℕ) : BFSState :=
  { idMap := idChain k, queue := [[k]], nextId := k + 1,
    dstates := List.range k, dtrans := dchainTrans 0 (p.take k),
    dfinals := [], ntrans := chainTrans 0 p }

/-- State of the subset construction on the chain NFA of pattern `p` after
the loop has finished.  When `p` is nonempty the NFA transition map has
grown by an empty entry at the final state, read by `operator[]` during the
last iteration. -/
def chainFinalState (p : List Char) : BFSState :=
  { idMap := idChain p.length, queue := [], nextId := p.length + 1,
    dstates := List.range (p.length + 1), dtrans := dchainTrans 0 p,
    dfinals := [p.length],
    ntrans := if p = [] then chainTrans 0 p else chainTrans 0 p ++ [(p.length, [])] }

/-! Lemmas about the container embeddings. -/

theorem mem_setInsert {α : Type} [LinearOrder α] (x a : α) (l : List α) :
    a ∈ setInsert x l ↔ a = x ∨ a ∈ l := by
  induction l with
  | nil => simp [setInsert]
  | cons y ys ih =>
    simp only [setInsert]
    split
    · simp
    · split
      next hxy => subst hxy; simp
      · simp only [List.mem_cons, ih]; tauto

theorem setInsert_sorted {α : Type} [LinearOrder α] (x : α) (l : List α)
    (h : l.Sorted (· < ·)) : (setInsert x l).Sorted (· < ·) := by
  induction l with
  | nil => simp [setInsert]
  | cons y ys ih =>
    rw [List.sorted_cons] at h
    simp only [setInsert]
    split
    next hlt =>
      rw [List.sorted_cons]
      refine ⟨?_, List.sorted_cons.2 h⟩
      intro b hb
      rcases List.mem_cons.1 hb with hb | hb
      · exact hb ▸ hlt
      · exact hlt.trans (h.1 b hb)
    · split
      next hxy => exact List.sorted_cons.2 h
      next hlt hne =>
        have hyx : y < x := lt_of_le_of_ne (not_lt.1 hlt) (fun hc => hne hc.symm)
        rw [List.sorted_cons]
        refine ⟨?_, ih h.2⟩
        intro b hb
        rcases (mem_setInsert x b ys).1 hb with hb | hb
        · exact hb ▸ hyx
        · exact h.1 b hb

theorem setInsert_append_of_lt {α : Type} [LinearOrder α] (x : α) (l : List α)
    (h : ∀ y ∈ l, y < x) : setInsert x l = l ++ [x] := by
  induction l with
  | nil => rfl
  | cons y ys ih =>
    have hy : y < x := h y (List.mem_cons_self y ys)
    simp only [setInsert, if_neg (lt_asymm hy), if_neg hy.ne', List.cons_append]
    exact congrArg (y :: ·) (ih fun z hz => h z (List.mem_cons_of_mem y hz))

theorem setMem_iff_mem {α : Type} [DecidableEq α] (x : α) (l : List α) :
    setMem x l = true ↔ x ∈ l := by
  induction l with
  | nil => simp [setMem]
  | cons y ys ih =>
    simp only [setMem]
    split
    next h => subst h; simp
    next h => simp [ih, h]

theorem mapFind_append_some {κ β : Type} [DecidableEq κ] (k : κ) (v : β)
    (l₁ l₂ : List (κ × β)) (h : mapFind k l₁ = some v) :
    mapFind k (l₁ ++ l₂) = some v := by
  induction l₁ with
  | nil => simp [mapFind] at h
  | cons e rest ih =>
    simp only [mapFind, List.cons_append] at h ⊢
    split at h
    next heq => simp only [if_pos heq]; exact h
    next heq => simp only [if_neg heq]; exact ih h

theorem mapFind_append_none {κ β : Type} [DecidableEq κ] (k : κ)
    (l₁ l₂ : List (κ × β)) (h : mapFind k l₁ = none) :
    mapFind k (l₁ ++ l₂) = mapFind k l₂ := by
  induction l₁ with
  | nil => rfl
  | cons e rest ih =>
    simp only [mapFind, List.cons_append] at h ⊢
    split at h
    next => exact absurd h (Option.some_ne_none _)
    next heq => simp only [if_neg heq]; exact ih h

theorem mapFind_none_of_ne {κ β : Type} [DecidableEq κ] (k : κ) (m : List (κ × β))
    (h : ∀ e ∈ m, k ≠ e.1) : mapFind k m = none := by
  induction m with
  | nil => rfl
  | cons e rest ih =>
    simp only [mapFind, if_neg (h e (List.mem_cons_self e rest))]
    exact ih fun f hf => h f (List.mem_cons_of_mem e hf)

theorem mapFind_none_of_lt {κ β : Type} [LinearOrder κ] (k : κ) (m : List (κ × β))
    (h : ∀ e ∈ m, e.1 < k) : mapFind k m = none :=
  mapFind_none_of_ne k m fun e he => (h e he).ne'

theorem mapFind_some_mem {κ β : Type} [DecidableEq κ] (k : κ) (v : β) (m : List (κ × β))
    (h : mapFind k m = some v) : (k, v) ∈ m := by
  induction m with
  | nil => simp [mapFind] at h
  | cons e rest ih =>
    simp only [mapFind] at h
    split at h
    next heq =>
      subst heq
      rw [Option.some_inj] at h
      exact h ▸ List.mem_cons_self e rest
    next heq => exact List.mem_cons_of_mem e (ih h)

theorem mem_mapOpIndex {κ β : Type} [LinearOrder κ] (k : κ) (d : β) (m : List (κ × β))
    (f : κ × β) (hf : f ∈ (mapOpIndex k d m).2) : f = (k, d) ∨ f ∈ m := by
  induction m with
  | nil =>
    simp only [mapOpIndex, List.mem_singleton] at hf
    exact Or.inl hf
  | cons e rest ih =>
    simp only [mapOpIndex] at hf
    split at hf
    next =>
      rcases List.mem_cons.1 hf with h1 | h1
      · exact Or.inl h1
      · exact Or.inr h1
    · split at hf
      next => exact Or.inr hf
      next =>
        rcases List.mem_cons.1 hf with h1 | h1
        · exact Or.inr (h1 ▸ List.mem_cons_self e rest)
        · rcases ih h1 with h2 | h2
          · exact Or.inl h2
          · exact Or.inr (List.mem_cons_of_mem e h2)

theorem mapOpIndex_eq_insert {κ β : Type} [LinearOrder κ] (k : κ) (d : β) (e : κ × β)
    (rest : List (κ × β)) (hlt : k < e.1) :
    mapOpIndex k d (e :: rest) = (d, (k, d) :: e :: rest) := by
  simp [mapOpIndex, hlt]

theorem mapOpIndex_eq_head {κ β : Type} [LinearOrder κ] (k : κ) (d : β) (e : κ × β)
    (rest : List (κ × β)) (heq : k = e.1) :
    mapOpIndex k d (e :: rest) = (e.2, e :: rest) := by
  simp [mapOpIndex, heq, lt_irrefl]

theorem mapOpIndex_eq_tail {κ β : Type} [LinearOrder κ] (k : κ) (d : β) (e : κ × β)
    (rest : List (κ × β)) (hgt : e.1 < k) :
    mapOpIndex k d (e :: rest) =
      ((mapOpIndex k d rest).1, e :: (mapOpIndex k d rest).2) := by
  simp [mapOpIndex, lt_asymm hgt, hgt.ne']

theorem mapOpIndex_fst {κ β : Type} [LinearOrder κ] (k : κ) (d : β) (m : List (κ × β))
    (hs : keysSorted m) : (mapOpIndex k d m).1 = (mapFind k m).getD d := by
  induction m with
  | nil => rfl
  | cons e rest ih =>
    rw [keysSorted, List.pairwise_cons] at hs
    rcases lt_trichotomy k e.1 with hlt | heq | hgt
    · have h2 : mapFind k rest = none :=
        mapFind_none_of_ne k rest fun f hf => (hlt.trans (hs.1 f hf)).ne
      rw [mapOpIndex_eq_insert k d e rest hlt]
      simp [mapFind, hlt.ne, h2]
    · rw [mapOpIndex_eq_head k d e rest heq]
      simp [mapFind, heq]
    · rw [mapOpIndex_eq_tail k d e rest hgt]
      have hfind : mapFind k (e :: rest) = mapFind k rest := by
        simp only [mapFind]
        exact if_neg hgt.ne'
      rw [hfind]
      exact ih hs.2

theorem mapOpIndex_find {κ β : Type} [LinearOrder κ] (k k' : κ) (d : β) (m : List (κ × β))
    (hs : keysSorted m) :
    mapFind k' (mapOpIndex k d m).2 =
      if k' = k then some ((mapFind k m).getD d) else mapFind k' m := by
  induction m with
  | nil =>
    by_cases h : k' = k
    · simp [mapOpIndex, mapFind, h]
    · simp [mapOpIndex, mapFind, h]
  | cons e rest ih =>
    rw [keysSorted, List.pairwise_cons] at hs
    rcases lt_trichotomy k e.1 with hlt | heq | hgt
    · rw [mapOpIndex_eq_insert k d e rest hlt]
      have h2 : mapFind k rest = none :=
        mapFind_none_of_ne k rest fun f hf => (hlt.trans (hs.1 f hf)).ne
      by_cases hk : k' = k
      · subst hk; simp [mapFind, hlt.ne, h2]
      · simp [mapFind, hk]
    · rw [mapOpIndex_eq_head k d e rest heq]
      by_cases hk : k' = k
      · subst hk; simp [mapFind, heq]
      · rw [if_neg hk]
    · rw [mapOpIndex_eq_tail k d e rest hgt]
      by_cases hk : k' = e.1
      · have hne : ¬ k' = k := fun hc => hgt.ne' (hc ▸ hk)
        simp [mapFind, hk, hne, hgt.ne]
      · simp only [mapFind, if_neg hk, if_neg hgt.ne']
        exact ih hs.2

theorem mapOpIndex_of_find {κ β : Type} [LinearOrder κ] (k : κ) (v d : β) (m : List (κ × β))
    (hs : keysSorted m) (h : mapFind k m = some v) : mapOpIndex k d m = (v, m) := by
  induction m with
  | nil => simp [mapFind] at h
  | cons e rest ih =>
    rw [keysSorted, List.pairwise_cons] at hs
    simp only [mapFind] at h
    simp only [mapOpIndex]
    split at h
    next heq =>
      rw [Option.some_inj] at h
      rw [if_neg (show ¬ k < e.1 by rw [heq]; exact lt_irrefl e.1), if_pos heq, h]
    next heq =>
      have hmem : (k, v) ∈ rest := mapFind_some_mem k v rest h
      have hlt : ¬ k < e.1 := not_lt.2 (hs.1 (k, v) hmem).le
      rw [if_neg hlt, if_neg heq, ih hs.2 h]

theorem mapOpIndex_append_of_lt {κ β : Type} [LinearOrder κ] (k : κ) (d : β)
    (m : List (κ × β)) (h : ∀ e ∈ m, e.1 < k) :
    mapOpIndex k d m = (d, m ++ [(k, d)]) := by
  induction m with
  | nil => rfl
  | cons e rest ih =>
    have he : e.1 < k := h e (List.mem_cons_self e rest)
    simp only [mapOpIndex, if_neg (lt_asymm he), if_neg he.ne']
    rw [ih fun f hf => h f (List.mem_cons_of_mem e hf)]
    simp

theorem mapUpdate_append_of_lt {κ β : Type} [LinearOrder κ] (k : κ) (f : β → β) (d : β)
    (m : List (κ × β)) (h : ∀ e ∈ m, e.1 < k) :
    mapUpdate k f d m = m ++ [(k, f d)] := by
  induction m with
  | nil => rfl
  | cons e rest ih =>
    have he : e.1 < k := h e (List.mem_cons_self e rest)
    simp only [mapUpdate, if_neg (lt_asymm he), if_neg he.ne', List.cons_append]
    exact congrArg (e :: ·) (ih fun g hg => h g (List.mem_cons_of_mem e hg))

theorem keysSorted_mapOpIndex {κ β : Type} [LinearOrder κ] (k : κ) (d : β)
    (m : List (κ × β)) (hs : keysSorted m) : keysSorted (mapOpIndex k d m).2 := by
  induction m with
  | nil => simp [mapOpIndex, keysSorted]
  | cons e rest ih =>
    rw [keysSorted, List.pairwise_cons] at hs
    simp only [mapOpIndex]
    split
    next hlt =>
      rw [keysSorted, List.pairwise_cons]
      refine ⟨?_, List.pairwise_cons.2 hs⟩
      intro f hf
      rcases List.mem_cons.1 hf with hf | hf
      · exact hf ▸ hlt
      · exact hlt.trans (hs.1 f hf)
    · split
      next => exact List.pairwise_cons.2 hs
      next hlt heq =>
        have hk : e.1 < k := lt_of_le_of_ne (not_lt.1 hlt) (fun hc => heq hc.symm)
        rw [keysSorted, List.pairwise_cons]
        constructor
        · intro f hf
          rcases mem_mapOpIndex k d rest f hf with h1 | h1
          · exact h1 ▸ hk
          · exact hs.1 f h1
        · exact ih hs.2

end SearchSystem

namespace SearchSystem

/-! Equivalence of the threaded simulators with pure runs over the
observable transition functions. -/

theorem effTrans_mapOpIndex (s : ℕ) (tr : TransMap) (hs : keysSorted tr) :
    effTrans (mapOpIndex s ([] : List (Char × List ℕ)) tr).2 = effTrans tr := by
  funext s' c
  unfold effTrans
  rw [mapOpIndex_find s s' ([] : List (Char × List ℕ)) tr hs]
  by_cases h : s' = s
  · rw [if_pos h, h]
    cases mapFind s tr <;> simp
  · rw [if_neg h]

theorem effDTrans_mapOpIndex (s : ℕ) (tr : DTransMap) (hs : keysSorted tr) :
    effDTrans (mapOpIndex s ([] : List (Char × ℕ)) tr).2 = effDTrans tr := by
  funext s' c
  unfold effDTrans
  rw [mapOpIndex_find s s' ([] : List (Char × ℕ)) tr hs]
  by_cases h : s' = s
  · rw [if_pos h, h]
    cases mapFind s tr <;> simp
  · rw [if_neg h]

theorem nfaStepBody_spec (c : Char) (s : ℕ) (p : List ℕ × TransMap)
    (hs : keysSorted p.2) :
    nfaStepBody c p s = (setUnionN p.1 (effTrans p.2 s c),
      (mapOpIndex s ([] : List (Char × List ℕ)) p.2).2) := by
  simp only [nfaStepBody]
  rw [mapOpIndex_fst s ([] : List (Char × List ℕ)) p.2 hs]
  unfold effTrans
  cases mapFind c ((mapFind s p.2).getD []) with
  | none => rfl
  | some tos => rfl

theorem nfaStep_spec (c : Char) (cur : List ℕ) : ∀ (tr : TransMap) (acc : List ℕ),
    keysSorted tr →
    (cur.foldl (nfaStepBody c) (acc, tr)).1 =
        cur.foldl (fun a s => setUnionN a (effTrans tr s c)) acc ∧
      effTrans (cur.foldl (nfaStepBody c) (acc, tr)).2 = effTrans tr ∧
      keysSorted (cur.foldl (nfaStepBody c) (acc, tr)).2 := by
  induction cur with
  | nil => exact fun tr acc hs => ⟨rfl, rfl, hs⟩
  | cons s cur ih =>
    intro tr acc hs
    rw [List.foldl_cons, List.foldl_cons, nfaStepBody_spec c s (acc, tr) hs]
    have h1 := effTrans_mapOpIndex s tr hs
    have h2 := keysSorted_mapOpIndex s ([] : List (Char × List ℕ)) tr hs
    obtain ⟨ih1, ih2, ih3⟩ :=
      ih (mapOpIndex s ([] : List (Char × List ℕ)) tr).2 (setUnionN acc (effTrans tr s c)) h2
    refine ⟨?_, by rw [ih2, h1], ih3⟩
    rw [ih1, h1]

theorem nfaStep_fst (tr : TransMap) (cur : List ℕ) (c : Char) (hs : keysSorted tr) :
    (nfaStep tr cur c).1 = nfaStepPure (effTrans tr) cur c :=
  (nfaStep_spec c cur tr [] hs).1

theorem nfaStep_snd (tr : TransMap) (cur : List ℕ) (c : Char) (hs : keysSorted tr) :
    effTrans (nfaStep tr cur c).2 = effTrans tr ∧ keysSorted (nfaStep tr cur c).2 :=
  ⟨(nfaStep_spec c cur tr [] hs).2.1, (nfaStep_spec c cur tr [] hs).2.2⟩

theorem nfaSimGo_spec (finals : List ℕ) (input : List Char) :
    ∀ (tr : TransMap) (cur : List ℕ), keysSorted tr →
    (nfaSimGo finals tr cur input).1 = nfaSimPure (effTrans tr) finals cur input ∧
      effTrans (nfaSimGo finals tr cur input).2 = effTrans tr ∧
      keysSorted (nfaSimGo finals tr cur input).2 := by
  induction input with
  | nil => exact fun tr cur hs => ⟨rfl, rfl, hs⟩
  | cons c rest ih =>
    intro tr cur hs
    have hfst := nfaStep_fst tr cur c hs
    have hsnd := nfaStep_snd tr cur c hs
    simp only [nfaSimGo, nfaSimPure, hfst]
    split
    next hempty => exact ⟨by simp [hempty], hsnd.1, hsnd.2⟩
    next hempty =>
      obtain ⟨ih1, ih2, ih3⟩ :=
        ih (nfaStep tr cur c).2 (nfaStepPure (effTrans tr) cur c) hsnd.2
      exact ⟨by rw [ih1, hsnd.1], by rw [ih2, hsnd.1], ih3⟩

theorem dfaSimGo_spec (finals : List ℕ) (input : List Char) :
    ∀ (tr : DTransMap) (cur : ℕ), keysSorted tr →
    (dfaSimGo finals tr cur input).1 = dfaRunContract (effDTrans tr) finals cur input ∧
      effDTrans (dfaSimGo finals tr cur input).2 = effDTrans tr ∧
      keysSorted (dfaSimGo finals tr cur input).2 := by
  induction input with
  | nil => exact fun tr cur hs => ⟨rfl, rfl, hs⟩
  | cons c rest ih =>
    intro tr cur hs
    have hfst := mapOpIndex_fst cur ([] : List (Char × ℕ)) tr hs
    have heff := effDTrans_mapOpIndex cur tr hs
    have hsort := keysSorted_mapOpIndex cur ([] : List (Char × ℕ)) tr hs
    simp only [dfaSimGo, dfaRunContract, hfst]
    have : mapFind c ((mapFind cur tr).getD []) = effDTrans tr cur c := rfl
    rw [this]
    cases hc : effDTrans tr cur c with
    | none => exact ⟨rfl, heff, hsort⟩
    | some nxt =>
      obtain ⟨ih1, ih2, ih3⟩ :=
        ih (mapOpIndex cur ([] : List (Char × ℕ)) tr).2 nxt hsort
      exact ⟨by rw [ih1, heff], by rw [ih2, heff], ih3⟩

end SearchSystem

namespace SearchSystem

/-! Characterization of the chain NFA built by `regexToNFA`. -/

theorem chainTrans_key_range (off : ℕ) (p : List Char) :
    ∀ e ∈ chainTrans off p, off ≤ e.1 ∧ e.1 < off + p.length := by
  induction p generalizing off with
  | nil => intro e he; simp [chainTrans] at he
  | cons c rest ih =>
    intro e he
    simp only [chainTrans, List.mem_cons] at he
    rcases he with he | he
    · subst he; simp
    · have := ih (off + 1) e he
      exact ⟨by omega, by simpa [Nat.add_comm, Nat.add_assoc, Nat.add_left_comm] using this.2⟩

theorem mem_foldl_setInsert {α : Type} [LinearOrder α] (p : List α) :
    ∀ (init : List α) (a : α),
    a ∈ p.foldl (fun acc c => setInsert c acc) init ↔ a ∈ init ∨ a ∈ p := by
  induction p with
  | nil => intro init a; simp
  | cons c rest ih =>
    intro init a
    rw [List.foldl_cons, ih (setInsert c init) a, mem_setInsert]
    simp only [List.mem_cons]
    tauto

theorem sorted_foldl_setInsert {α : Type} [LinearOrder α] (p : List α) :
    ∀ (init : List α), init.Sorted (· < ·) →
    (p.foldl (fun acc c => setInsert c acc) init).Sorted (· < ·) := by
  induction p with
  | nil => intro init h; exact h
  | cons c rest ih =>
    intro init h
    exact ih (setInsert c init) (setInsert_sorted c init h)

theorem buildLoop_spec (p : List Char) :
    ∀ (nfa : NFA) (last : ℕ),
    (∀ e ∈ nfa.transitions, e.1 < last) → (∀ s ∈ nfa.states, s ≤ last) →
    buildLoop nfa last p =
      ({ nfa with
          transitions := nfa.transitions ++ chainTrans last p
          states := nfa.states ++ List.range' (last + 1) p.length
          alphabet := p.foldl (fun acc c => setInsert c acc) nfa.alphabet },
        last + p.length) := by
  induction p with
  | nil =>
    intro nfa last htr hst
    simp [buildLoop, chainTrans]
  | cons c rest ih =>
    intro nfa last htr hst
    rw [buildLoop]
    have htr1 : addTransition nfa.transitions last c (last + 1) =
        nfa.transitions ++ [(last, [(c, [last + 1])])] := by
      unfold addTransition
      rw [mapUpdate_append_of_lt last _ _ nfa.transitions htr]
      rfl
    have hst1 : setInsert (last + 1) nfa.states = nfa.states ++ [last + 1] :=
      setInsert_append_of_lt (last + 1) nfa.states
        (fun y hy => Nat.lt_succ_of_le (hst y hy))
    rw [ih _ (last + 1)
      (by
        intro e he
        rw [htr1] at he
        rcases List.mem_append.1 he with he | he
        · exact (htr e he).trans (Nat.lt_succ_self last)
        · rw [List.mem_singleton] at he
          rw [he]
          exact Nat.lt_succ_self last)
      (by
        intro s hsmem
        rw [hst1] at hsmem
        rcases List.mem_append.1 hsmem with hm | hm
        · exact (hst s hm).trans (Nat.le_succ last)
        · rw [List.mem_singleton] at hm
          exact hm.le)]
    simp only [htr1, hst1, List.append_assoc, List.singleton_append]
    rw [show (last, [(c, [last + 1])]) :: chainTrans (last + 1) rest =
        chainTrans last (c :: rest) from rfl]
    rw [show (last + 1) :: List.range' (last + 1 + 1) rest.length =
        List.range' (last + 1) (rest.length + 1) from (List.range'_succ (last + 1) rest.length 1).symm]
    simp [List.length_cons, Nat.add_comm, Nat.add_assoc, Nat.add_left_comm]

theorem regexToNFA_eq (p : List Char) :
    regexToNFA p =
      { states := List.range (p.length + 1)
        alphabet := p.foldl (fun acc c => setInsert c acc) []
        transitions := chainTrans 0 p
        startState := 0
        finalStates := [p.length] } := by
  have hrange : (0 : ℕ) :: List.range' 1 p.length = List.range (p.length + 1) := by
    rw [List.range_eq_range']
    have := (List.range'_succ 0 p.length 1).symm
    simpa using this
  unfold regexToNFA
  rw [buildLoop_spec p _ 0 (by intro e he; simp at he)
    (by intro s hsmem; simp at hsmem; exact le_of_eq hsmem)]
  simp [hrange, setInsert]

end SearchSystem

namespace SearchSystem

/-! Lookup structure of the chain transition maps, and acceptance of the
chain automata. -/

theorem keysSorted_chainTrans (p : List Char) : ∀ off : ℕ, keysSorted (chainTrans off p) := by
  induction p with
  | nil => intro off; simp [chainTrans, keysSorted]
  | cons c rest ih =>
    intro off
    rw [chainTrans, keysSorted, List.pairwise_cons]
    exact ⟨fun e he => (chainTrans_key_range (off + 1) rest e he).1.trans_lt'
      (Nat.lt_succ_self off), ih (off + 1)⟩

theorem dchainTrans_key_range (off : ℕ) (p : List Char) :
    ∀ e ∈ dchainTrans off p, off ≤ e.1 ∧ e.1 < off + p.length := by
  induction p generalizing off with
  | nil => intro e he; simp [dchainTrans] at he
  | cons c rest ih =>
    intro e he
    simp only [dchainTrans, List.mem_cons] at he
    rcases he with he | he
    · subst he; simp
    · have := ih (off + 1) e he
      exact ⟨by omega, by simpa [Nat.add_comm, Nat.add_assoc, Nat.add_left_comm] using this.2⟩

theorem keysSorted_dchainTrans (p : List Char) : ∀ off : ℕ, keysSorted (dchainTrans off p) := by
  induction p with
  | nil => intro off; simp [dchainTrans, keysSorted]
  | cons c rest ih =>
    intro off
    rw [dchainTrans, keysSorted, List.pairwise_cons]
    exact ⟨fun e he => (dchainTrans_key_range (off + 1) rest e he).1.trans_lt'
      (Nat.lt_succ_self off), ih (off + 1)⟩

theorem mapFind_chainTrans (p : List Char) : ∀ (off s : ℕ),
    mapFind s (chainTrans off p) =
      if off ≤ s then (p[s - off]?).map (fun c => [(c, [s + 1])]) else none := by
  induction p with
  | nil =>
    intro off s
    rw [chainTrans]
    by_cases h : off ≤ s
    · simp [mapFind, h]
    · simp [mapFind, h]
  | cons c rest ih =>
    intro off s
    rw [chainTrans]
    simp only [mapFind]
    by_cases hs : s = off
    · subst hs
      simp
    · rw [if_neg hs, ih (off + 1) s]
      by_cases h1 : off + 1 ≤ s
      · have h0 : off ≤ s := by omega
        rw [if_pos h1, if_pos h0]
        have : s - off = (s - (off + 1)) + 1 := by omega
        rw [this]
        simp
      · have h0 : ¬ off ≤ s := by omega
        rw [if_neg h1, if_neg h0]

theorem effTrans_chainTrans (p : List Char) (s : ℕ) (c : Char) :
    effTrans (chainTrans 0 p) s c = if p[s]? = some c then [s + 1] else [] := by
  unfold effTrans
  rw [mapFind_chainTrans p 0 s, if_pos (Nat.zero_le s), Nat.sub_zero]
  cases hp : p[s]? with
  | none => simp [mapFind]
  | some ch =>
    by_cases h : c = ch
    · subst h; simp [mapFind]
    · have h2 : ¬ ch = c := fun hc => h hc.symm
      simp [mapFind, h, h2]

theorem mapFind_dchainTrans (p : List Char) : ∀ (off s : ℕ),
    mapFind s (dchainTrans off p) =
      if off ≤ s then (p[s - off]?).map (fun c => [(c, s + 1)]) else none := by
  induction p with
  | nil =>
    intro off s
    rw [dchainTrans]
    by_cases h : off ≤ s
    · simp [mapFind, h]
    · simp [mapFind, h]
  | cons c rest ih =>
    intro off s
    rw [dchainTrans]
    simp only [mapFind]
    by_cases hs : s = off
    · subst hs
      simp
    · rw [if_neg hs, ih (off + 1) s]
      by_cases h1 : off + 1 ≤ s
      · have h0 : off ≤ s := by omega
        rw [if_pos h1, if_pos h0]
        have : s - off = (s - (off + 1)) + 1 := by omega
        rw [this]
        simp
      · have h0 : ¬ off ≤ s := by omega
        rw [if_neg h1, if_neg h0]

theorem effDTrans_dchainTrans (p : List Char) (s : ℕ) (c : Char) :
    effDTrans (dchainTrans 0 p) s c = if p[s]? = some c then some (s + 1) else none := by
  unfold effDTrans
  rw [mapFind_dchainTrans p 0 s, if_pos (Nat.zero_le s), Nat.sub_zero]
  cases hp : p[s]? with
  | none => simp [mapFind]
  | some ch =>
    by_cases h : c = ch
    · subst h; simp [mapFind]
    · have h2 : ¬ ch = c := fun hc => h hc.symm
      simp [mapFind, h, h2]

theorem drop_ne_nil_of_lt {α : Type} (p : List α) (i : ℕ) (hi : i < p.length) :
    p.drop i ≠ [] := by
  intro hc
  have := congrArg List.length hc
  simp only [List.length_drop, List.length_nil] at this
  omega

theorem cons_ne_drop_of_head {p : List Char} {i : ℕ} {c : Char} {rest : List Char}
    (h : ¬ p[i]? = some c) : ¬ (c :: rest = p.drop i) := by
  intro hc
  by_cases hilt : i < p.length
  · rw [List.drop_eq_getElem_cons hilt] at hc
    have h1 : c = p[i] := (List.cons_eq_cons.1 hc).1
    exact h (by rw [List.getElem?_eq_getElem hilt, ← h1])
  · rw [List.drop_eq_nil_of_le (by omega)] at hc
    exact List.cons_ne_nil c rest hc

theorem nfaSimPure_chain (p : List Char) (s : List Char) : ∀ i, i ≤ p.length →
    nfaSimPure (effTrans (chainTrans 0 p)) [p.length] [i] s = decide (s = p.drop i) := by
  induction s with
  | nil =>
    intro i hi
    show ([i].any fun s => setMem s [p.length]) = decide (([] : List Char) = p.drop i)
    by_cases h : i = p.length
    · subst h
      simp [setMem, List.drop_length]
    · have hne := drop_ne_nil_of_lt p i (by omega)
      have h2 : decide (([] : List Char) = p.drop i) = false := by
        simp only [decide_eq_false_iff_not]
        exact fun hc => hne hc.symm
      rw [h2]
      simp [setMem, h]
  | cons c rest ih =>
    intro i hi
    have hstep : nfaStepPure (effTrans (chainTrans 0 p)) [i] c =
        if p[i]? = some c then [i + 1] else [] := by
      simp only [nfaStepPure, List.foldl_cons, List.foldl_nil, effTrans_chainTrans]
      by_cases h : p[i]? = some c
      · rw [if_pos h]
        rfl
      · rw [if_neg h]
        rfl
    simp only [nfaSimPure, hstep]
    by_cases h : p[i]? = some c
    · have hilt : i < p.length := by
        rcases List.getElem?_eq_some_iff.1 h with ⟨hlt, _⟩
        exact hlt
      rw [if_pos h, if_neg (by simp)]
      rw [ih (i + 1) hilt]
      have hdrop : p.drop i = c :: p.drop (i + 1) := by
        rw [List.drop_eq_getElem_cons hilt]
        rcases List.getElem?_eq_some_iff.1 h with ⟨hlt, hv⟩
        rw [hv]
      rw [hdrop]
      simp
    · rw [if_neg h, if_pos rfl]
      simp [cons_ne_drop_of_head h]

theorem dfaRunContract_chain (p : List Char) (s : List Char) : ∀ i, i ≤ p.length →
    dfaRunContract (effDTrans (dchainTrans 0 p)) [p.length] i s = decide (s = p.drop i) := by
  induction s with
  | nil =>
    intro i hi
    show setMem i [p.length] = decide (([] : List Char) = p.drop i)
    by_cases h : i = p.length
    · subst h
      simp [setMem, List.drop_length]
    · have hne := drop_ne_nil_of_lt p i (by omega)
      have h2 : decide (([] : List Char) = p.drop i) = false := by
        simp only [decide_eq_false_iff_not]
        exact fun hc => hne hc.symm
      rw [h2]
      simp [setMem, h]
  | cons c rest ih =>
    intro i hi
    simp only [dfaRunContract, effDTrans_dchainTrans]
    by_cases h : p[i]? = some c
    · have hilt : i < p.length := by
        rcases List.getElem?_eq_some_iff.1 h with ⟨hlt, _⟩
        exact hlt
      rw [if_pos h]
      show dfaRunContract (effDTrans (dchainTrans 0 p)) [p.length] (i + 1) rest =
        decide (c :: rest = p.drop i)
      rw [ih (i + 1) hilt]
      have hdrop : p.drop i = c :: p.drop (i + 1) := by
        rw [List.drop_eq_getElem_cons hilt]
        rcases List.getElem?_eq_some_iff.1 h with ⟨hlt, hv⟩
        rw [hv]
      rw [hdrop]
      simp
    · rw [if_neg h]
      simp [cons_ne_drop_of_head h]
end SearchSystem

namespace SearchSystem

/-! Trace of the subset construction on chain NFAs. -/

theorem mapFind_idChain (k : ℕ) : ∀ m : ℕ,
    mapFind [m] (idChain k) = if m ≤ k then some m else none := by
  induction k with
  | zero =>
    intro m
    by_cases h : m = 0
    · subst h; simp [idChain, mapFind]
    · rw [idChain]
      have : ¬ ([m] : List ℕ) = [0] := by simp [h]
      simp [mapFind, this, h]
  | succ k ih =>
    intro m
    rw [idChain]
    by_cases h : m ≤ k
    · rw [mapFind_append_some [m] m (idChain k) _ (by rw [ih m, if_pos h]), if_pos (by omega)]
    · rw [mapFind_append_none [m] (idChain k) _ (by rw [ih m, if_neg h])]
      by_cases h2 : m = k + 1
      · subst h2; simp [mapFind]
      · have h3 : ¬ m ≤ k + 1 := by omega
        have h4 : ¬ ([m] : List ℕ) = [k + 1] := by simp [h2]
        simp [mapFind, h4, h3]

theorem dchainTrans_concat (x : Char) (xs : List Char) : ∀ off : ℕ,
    dchainTrans off (xs ++ [x]) =
      dchainTrans off xs ++ [(off + xs.length, [(x, off + xs.length + 1)])] := by
  induction xs with
  | nil => intro off; simp [dchainTrans]
  | cons c rest ih =>
    intro off
    rw [List.cons_append, dchainTrans, ih (off + 1), dchainTrans]
    simp only [List.cons_append, List.length_cons]
    rw [show off + 1 + rest.length = off + (rest.length + 1) from by omega]

theorem keysSorted_chainTrans_app (p : List Char) :
    keysSorted (chainTrans 0 p ++ [(p.length, ([] : List (Char × List ℕ)))]) := by
  rw [keysSorted, List.pairwise_append]
  refine ⟨keysSorted_chainTrans p 0, List.pairwise_singleton _ _, ?_⟩
  intro e he f hf
  rw [List.mem_singleton] at hf
  rw [hf]
  exact (chainTrans_key_range 0 p e he).2.trans_le (by omega)

theorem mapFind_chain_last (p : List Char) :
    mapFind p.length (chainTrans 0 p ++ [(p.length, ([] : List (Char × List ℕ)))]) =
      some [] := by
  rw [mapFind_append_none p.length (chainTrans 0 p) _
    (mapFind_none_of_lt p.length (chainTrans 0 p)
      (fun e he => (chainTrans_key_range 0 p e he).2.trans_le (by omega)))]
  simp [mapFind]

theorem nfaStep_chain_lt (p : List Char) (k : ℕ) (c : Char) (hk : k < p.length) :
    nfaStep (chainTrans 0 p) [k] c =
      ((if c = p[k] then [k + 1] else []), chainTrans 0 p) := by
  have hfind : mapFind k (chainTrans 0 p) = some [(p[k], [k + 1])] := by
    rw [mapFind_chainTrans p 0 k, if_pos (Nat.zero_le k), Nat.sub_zero,
      List.getElem?_eq_getElem hk]
    rfl
  show nfaStepBody c ([], chainTrans 0 p) k = _
  simp only [nfaStepBody]
  rw [mapOpIndex_of_find k _ _ _ (keysSorted_chainTrans p 0) hfind]
  by_cases h : c = p[k]
  · subst h
    simp [mapFind, setUnionN, setInsert]
  · have h2 : ¬ c = p[k] := h
    simp only [mapFind, if_neg h2]

theorem nfaStep_chain_last_new (p : List Char) (c : Char) :
    nfaStep (chainTrans 0 p) [p.length] c =
      ([], chainTrans 0 p ++ [(p.length, [])]) := by
  show nfaStepBody c ([], chainTrans 0 p) p.length = _
  simp only [nfaStepBody]
  rw [mapOpIndex_append_of_lt p.length _ (chainTrans 0 p)
    (fun e he => (chainTrans_key_range 0 p e he).2.trans_le (by omega))]
  simp [mapFind]

theorem nfaStep_chain_last_seen (p : List Char) (c : Char) :
    nfaStep (chainTrans 0 p ++ [(p.length, [])]) [p.length] c =
      ([], chainTrans 0 p ++ [(p.length, [])]) := by
  show nfaStepBody c ([], chainTrans 0 p ++ [(p.length, [])]) p.length = _
  simp only [nfaStepBody]
  rw [mapOpIndex_of_find p.length _ _ _ (keysSorted_chainTrans_app p) (mapFind_chain_last p)]
  simp [mapFind]

theorem bfsChar_empty (cur : List ℕ) (cid : ℕ) (st : BFSState) (c : Char)
    (tr' : TransMap) (h : nfaStep st.ntrans cur c = ([], tr')) :
    bfsChar cur cid st c = { st with ntrans := tr' } := by
  simp [bfsChar, h]

theorem bfsChar_new (cur : List ℕ) (cid : ℕ) (st : BFSState) (c : Char)
    (nxt : List ℕ) (tr' : TransMap) (h : nfaStep st.ntrans cur c = (nxt, tr'))
    (hne : nxt ≠ []) (hid : mapFind nxt st.idMap = none) :
    bfsChar cur cid st c =
      { st with
          ntrans := tr'
          idMap := st.idMap ++ [(nxt, st.nextId)]
          nextId := st.nextId + 1
          queue := st.queue ++ [nxt]
          dtrans := dfaAssign st.dtrans cid c st.nextId } := by
  have hfind : mapFind nxt (st.idMap ++ [(nxt, st.nextId)]) = some st.nextId := by
    rw [mapFind_append_none nxt st.idMap _ hid]
    simp [mapFind]
  simp only [bfsChar, h, if_neg hne, hid]
  rw [hfind]
  rfl

theorem foldl_bfsChar_noop (p : List Char) (k cid : ℕ) (hk : k < p.length) :
    ∀ (cs : List Char) (st : BFSState), st.ntrans = chainTrans 0 p →
    (∀ c ∈ cs, c ≠ p[k]) →
    cs.foldl (fun s c => bfsChar [k] cid s c) st = st := by
  intro cs
  induction cs with
  | nil => intro st h1 h2; rfl
  | cons c rest ih =>
    intro st h1 h2
    rw [List.foldl_cons]
    have hstep : nfaStep st.ntrans [k] c = ([], st.ntrans) := by
      rw [h1, nfaStep_chain_lt p k c hk, if_neg (h2 c (List.mem_cons_self c rest))]
    rw [bfsChar_empty [k] cid st c st.ntrans hstep]
    exact ih st h1 (fun x hx => h2 x (List.mem_cons_of_mem c hx))

theorem foldl_bfsChar_last_noop (p : List Char) (cid : ℕ) :
    ∀ (cs : List Char) (st : BFSState),
    st.ntrans = chainTrans 0 p ++ [(p.length, [])] →
    cs.foldl (fun s c => bfsChar [p.length] cid s c) st = st := by
  intro cs
  induction cs with
  | nil => intro st h1; rfl
  | cons c rest ih =>
    intro st h1
    rw [List.foldl_cons]
    have hstep : nfaStep st.ntrans [p.length] c = ([], st.ntrans) := by
      rw [h1, nfaStep_chain_last_seen p c]
    rw [bfsChar_empty [p.length] cid st c st.ntrans hstep]
    exact ih st h1

end SearchSystem

namespace SearchSystem

theorem bfsProcess_chain_step (p : List Char) (k : ℕ) (hk : k < p.length) :
    bfsProcess (p.foldl (fun acc c => setInsert c acc) []) [p.length] [k]
      ⟨idChain k, [], k + 1, List.range k, dchainTrans 0 (p.take k), [], chainTrans 0 p⟩ =
      ⟨idChain (k + 1), [[k + 1]], k + 2, List.range (k + 1),
        dchainTrans 0 (p.take (k + 1)), [], chainTrans 0 p⟩ := by
  have halphmem : p[k] ∈ p.foldl (fun acc c => setInsert c acc) [] :=
    (mem_foldl_setInsert p [] (p[k])).2 (Or.inr (List.getElem_mem hk))
  obtain ⟨ys, zs, hsplit⟩ := List.append_of_mem halphmem
  have hnodup : (ys ++ p[k] :: zs).Nodup := by
    rw [← hsplit]
    exact (sorted_foldl_setInsert p [] List.sorted_nil).nodup
  have hys : ∀ c ∈ ys, c ≠ p[k] := by
    intro c hc hceq
    rcases List.nodup_append.1 hnodup with ⟨_, _, hdisj⟩
    exact hdisj hc (hceq ▸ List.mem_cons_self _ _)
  have hzs : ∀ c ∈ zs, c ≠ p[k] := by
    intro c hc hceq
    have h2 := (List.nodup_append.1 hnodup).2.1
    rw [List.nodup_cons] at h2
    exact h2.1 (hceq ▸ hc)
  have hcid : (mapFind [k] (idChain k)).getD 0 = k := by
    rw [mapFind_idChain k k, if_pos (le_refl k)]
    rfl
  have hdst : setInsert k (List.range k) = List.range (k + 1) := by
    rw [setInsert_append_of_lt k (List.range k) (fun y hy => List.mem_range.1 hy),
      ← List.range_succ]
  have hassign : dfaAssign (dchainTrans 0 (p.take k)) k (p[k]) (k + 1) =
      dchainTrans 0 (p.take (k + 1)) := by
    have hlen : (p.take k).length = k := by rw [List.length_take]; omega
    have hkeys : ∀ e ∈ dchainTrans 0 (p.take k), e.1 < k := by
      intro e he
      have h3 := (dchainTrans_key_range 0 (p.take k) e he).2
      rw [hlen] at h3
      omega
    unfold dfaAssign
    rw [mapUpdate_append_of_lt k _ _ _ hkeys]
    have htake : p.take (k + 1) = p.take k ++ [p[k]] := by
      rw [List.take_succ, List.getElem?_eq_getElem hk]
      rfl
    rw [htake, dchainTrans_concat (p[k]) (p.take k) 0, hlen]
    simp [mapUpdate]
  have hstep := nfaStep_chain_lt p k (p[k]) hk
  simp only [eq_self_iff_true, if_true] at hstep
  have hfinals : ([k].any fun s => setMem s [p.length]) = false := by
    simp [setMem, Nat.ne_of_lt hk]
  simp only [bfsProcess, hcid, hdst, hfinals, Bool.false_eq_true, if_false]
  rw [hsplit, List.foldl_append, List.foldl_cons]
  rw [foldl_bfsChar_noop p k k hk ys _ rfl hys]
  rw [bfsChar_new [k] k _ (p[k]) [k + 1] (chainTrans 0 p) hstep
    (by simp) (by rw [mapFind_idChain k (k + 1)]; simp)]
  rw [foldl_bfsChar_noop p k k hk zs _ rfl hzs]
  simp only [List.nil_append]
  rw [hassign]
  rfl

end SearchSystem

namespace SearchSystem

theorem bfsProcess_chain_last (p : List Char) :
    bfsProcess (p.foldl (fun acc c => setInsert c acc) []) [p.length] [p.length]
      ⟨idChain p.length, [], p.length + 1, List.range p.length,
        dchainTrans 0 (p.take p.length), [], chainTrans 0 p⟩ =
      chainFinalState p := by
  have hcid : (mapFind [p.length] (idChain p.length)).getD 0 = p.length := by
    rw [mapFind_idChain, if_pos (le_refl p.length)]
    rfl
  have hdst : setInsert p.length (List.range p.length) = List.range (p.length + 1) := by
    rw [setInsert_append_of_lt _ _ (fun y hy => List.mem_range.1 hy), ← List.range_succ]
  have hfinals : ([p.length].any fun s => setMem s [p.length]) = true := by
    simp [setMem]
  simp only [bfsProcess, hcid, hdst, hfinals, if_true]
  rw [List.take_length]
  by_cases hp : p = []
  · subst hp
    simp [chainFinalState, setInsert, chainTrans, dchainTrans, idChain]
  · have h0 : 0 < p.length := List.length_pos.2 hp
    have halph0 : p[0] ∈ p.foldl (fun acc c => setInsert c acc) [] :=
      (mem_foldl_setInsert p [] (p[0])).2 (Or.inr (List.getElem_mem h0))
    obtain ⟨c, cs, hcons⟩ :=
      List.exists_cons_of_ne_nil (List.ne_nil_of_mem halph0)
    rw [hcons, List.foldl_cons]
    rw [bfsChar_empty [p.length] p.length _ c (chainTrans 0 p ++ [(p.length, [])])
      (nfaStep_chain_last_new p c)]
    rw [foldl_bfsChar_last_noop p p.length cs _ rfl]
    simp only [chainFinalState, if_neg hp]
    rfl

theorem bfsLoop_empty_queue (alph : List Char) (fi : List ℕ) (fuel : ℕ) (st : BFSState)
    (h : st.queue = []) : bfsLoop alph fi fuel st = st := by
  cases fuel with
  | zero => rfl
  | succ f => simp [bfsLoop, h]

theorem bfsLoop_chain (p : List Char) : ∀ (n k : ℕ), k + n = p.length →
    ∀ fuel : ℕ, n + 1 ≤ fuel →
    bfsLoop (p.foldl (fun acc c => setInsert c acc) []) [p.length] fuel (chainState p k) =
      chainFinalState p := by
  intro n
  induction n with
  | zero =>
    intro k hkn fuel hfuel
    obtain ⟨f, rfl⟩ : ∃ f, fuel = f + 1 := ⟨fuel - 1, by omega⟩
    have hk : k = p.length := by omega
    subst hk
    have hpop : bfsLoop (p.foldl (fun acc c => setInsert c acc) []) [p.length] (f + 1)
        (chainState p p.length) =
        bfsLoop (p.foldl (fun acc c => setInsert c acc) []) [p.length] f
          (bfsProcess (p.foldl (fun acc c => setInsert c acc) []) [p.length] [p.length]
            ⟨idChain p.length, [], p.length + 1, List.range p.length,
              dchainTrans 0 (p.take p.length), [], chainTrans 0 p⟩) := rfl
    rw [hpop, bfsProcess_chain_last p]
    exact bfsLoop_empty_queue _ _ f (chainFinalState p) rfl
  | succ n ih =>
    intro k hkn fuel hfuel
    obtain ⟨f, rfl⟩ : ∃ f, fuel = f + 1 := ⟨fuel - 1, by omega⟩
    have hk : k < p.length := by omega
    have hpop : bfsLoop (p.foldl (fun acc c => setInsert c acc) []) [p.length] (f + 1)
        (chainState p k) =
        bfsLoop (p.foldl (fun acc c => setInsert c acc) []) [p.length] f
          (bfsProcess (p.foldl (fun acc c => setInsert c acc) []) [p.length] [k]
            ⟨idChain k, [], k + 1, List.range k,
              dchainTrans 0 (p.take k), [], chainTrans 0 p⟩) := rfl
    rw [hpop, bfsProcess_chain_step p k hk]
    have : (⟨idChain (k + 1), [[k + 1]], k + 2, List.range (k + 1),
        dchainTrans 0 (p.take (k + 1)), [], chainTrans 0 p⟩ : BFSState) =
        chainState p (k + 1) := rfl
    rw [this]
    exact ih (k + 1) (by omega) f (by omega)

theorem nfaToDFA_chain (p : List Char) :
    nfaToDFA (regexToNFA p) =
      ({ states := List.range (p.length + 1)
         alphabet := p.foldl (fun acc c => setInsert c acc) []
         transitions := dchainTrans 0 p
         startState := 0
         finalStates := [p.length] },
       { regexToNFA p with transitions :=
           if p = [] then chainTrans 0 p else chainTrans 0 p ++ [(p.length, [])] }) := by
  have hloop := bfsLoop_chain p p.length 0 (by omega) (2 ^ (p.length + 1))
    ((Nat.lt_two_pow (p.length + 1)).le)
  rw [regexToNFA_eq p]
  simp only [nfaToDFA, List.length_range]
  rw [show (⟨[([0], 0)], [[0]], 1, [], [], [], chainTrans 0 p⟩ : BFSState) =
      chainState p 0 from rfl]
  rw [hloop]
  rfl

end SearchSystem

namespace SearchSystem

/-- Acceptance of the chain NFA: `regexToNFA p` accepts exactly `p`. -/
theorem nfaAccepts_chain (p s : List Char) :
    nfaAccepts (regexToNFA p) s = decide (s = p) := by
  rw [regexToNFA_eq p]
  simp only [nfaAccepts, NFA.simulate]
  rw [(nfaSimGo_spec [p.length] s (chainTrans 0 p) [0] (keysSorted_chainTrans p 0)).1]
  rw [nfaSimPure_chain p s 0 (Nat.zero_le _), List.drop_zero]

/-- Acceptance of the converted DFA: it also accepts exactly `p`. -/
theorem dfaAccepts_chain (p s : List Char) :
    dfaAccepts (toDFA (regexToNFA p)) s = decide (s = p) := by
  unfold toDFA
  rw [nfaToDFA_chain p]
  simp only [dfaAccepts, DFA.simulate]
  rw [(dfaSimGo_spec [p.length] s (dchainTrans 0 p) 0 (keysSorted_dchainTrans p 0)).1]
  rw [dfaRunContract_chain p s 0 (Nat.zero_le _), List.drop_zero]

end SearchSystem

namespace SearchSystem

/-! The iterative table of `approximateMatch` computes the recurrence
`dpSpec`, and the resulting characterizations of the matcher. -/

theorem dpSpec_zero_left (text pattern : List Char) (j : ℕ) :
    dpSpec text pattern 0 j = j := by
  simp [dpSpec]

theorem dpSpec_zero_right (text pattern : List Char) (i : ℕ) :
    dpSpec text pattern i 0 = 0 := by
  cases i with
  | zero => simp [dpSpec]
  | succ n => simp [dpSpec]

theorem nextRowGo_spec (text pattern : List Char) (i : ℕ) (t : Char)
    (ht : text[i]? = some t) :
    ∀ (ps : List Char) (j : ℕ), ps = pattern.drop j →
    nextRowGo t ps ((List.range' (j + 1) (pattern.length - j)).map (dpSpec text pattern i))
        (dpSpec text pattern i j) (dpSpec text pattern (i + 1) j) =
      (List.range' (j + 1) (pattern.length - j)).map (dpSpec text pattern (i + 1)) := by
  intro ps
  induction ps with
  | nil =>
    intro j hj
    have hlen : pattern.length - j = 0 := by
      have := congrArg List.length hj
      simp only [List.length_nil, List.length_drop] at this
      omega
    rw [hlen]
    rfl
  | cons q ps ih =>
    intro j hj
    have hjlt : j < pattern.length := by
      by_contra hc
      rw [List.drop_eq_nil_of_le (by omega)] at hj
      exact List.cons_ne_nil q ps hj
    have hq : pattern[j]? = some q := by
      rw [List.drop_eq_getElem_cons hjlt] at hj
      rw [List.getElem?_eq_getElem hjlt, (List.cons_eq_cons.1 hj).1]
    have hps : ps = pattern.drop (j + 1) := by
      rw [List.drop_eq_getElem_cons hjlt] at hj
      exact (List.cons_eq_cons.1 hj).2
    have hmj : pattern.length - j = (pattern.length - (j + 1)) + 1 := by omega
    rw [hmj, List.range'_succ, List.map_cons]
    simp only [nextRowGo, List.headD_cons, List.tail_cons]
    have hcur : (if t = q then dpSpec text pattern i j
        else 1 + min (dpSpec text pattern i (j + 1))
          (min (dpSpec text pattern (i + 1) j) (dpSpec text pattern i j))) =
        dpSpec text pattern (i + 1) (j + 1) := by
      simp only [dpSpec]
      have h1 : text.getD i 'a' = t := by
        rw [List.getD_eq_getElem?_getD, ht]
        rfl
      have h2 : pattern.getD j 'a' = q := by
        rw [List.getD_eq_getElem?_getD, hq]
        rfl
      rw [h1, h2]
      by_cases h : t = q
      · rw [if_pos h, if_pos h]
      · rw [if_neg h, if_neg h]
        have : min (dpSpec text pattern i (j + 1))
            (min (dpSpec text pattern (i + 1) j) (dpSpec text pattern i j)) =
            min (dpSpec text pattern i j)
              (min (dpSpec text pattern (i + 1) j) (dpSpec text pattern i (j + 1))) := by
          omega
        rw [this]
    rw [hcur]
    have := ih (j + 1) hps
    rw [show j + 1 + 1 = j + 2 from rfl] at this
    rw [this]
    rfl

theorem nextRow_spec (text pattern : List Char) (i : ℕ) (t : Char)
    (ht : text[i]? = some t) :
    nextRow t pattern (rowSpec text pattern i) = rowSpec text pattern (i + 1) := by
  have hsplit : ∀ k, rowSpec text pattern k =
      dpSpec text pattern k 0 ::
        (List.range' 1 pattern.length).map (dpSpec text pattern k) := by
    intro k
    rw [rowSpec, List.range_eq_range', List.range'_succ, List.map_cons]
  rw [hsplit i, hsplit (i + 1)]
  simp only [nextRow, List.headD_cons, List.tail_cons]
  rw [dpSpec_zero_right text pattern (i + 1)]
  have h3 := nextRowGo_spec text pattern i t ht pattern 0 (by rw [List.drop_zero])
  rw [Nat.sub_zero, Nat.zero_add, dpSpec_zero_right text pattern (i + 1)] at h3
  rw [h3]

theorem dpRows_spec (text pattern : List Char) :
    ∀ (ts : List Char) (k : ℕ), ts = text.drop k →
    dpRows pattern (rowSpec text pattern k) ts =
      (List.range' k (ts.length + 1)).map (rowSpec text pattern) := by
  intro ts
  induction ts with
  | nil =>
    intro k hk
    rw [dpRows]
    simp [List.range'_one]
  | cons t ts ih =>
    intro k hk
    have hklt : k < text.length := by
      by_contra hc
      rw [List.drop_eq_nil_of_le (by omega)] at hk
      exact List.cons_ne_nil t ts hk
    have ht : text[k]? = some t := by
      rw [List.drop_eq_getElem_cons hklt] at hk
      rw [List.getElem?_eq_getElem hklt, (List.cons_eq_cons.1 hk).1]
    have hts : ts = text.drop (k + 1) := by
      rw [List.drop_eq_getElem_cons hklt] at hk
      exact (List.cons_eq_cons.1 hk).2
    rw [dpRows, nextRow_spec text pattern k t ht, ih (k + 1) hts]
    simp [List.range'_succ]

theorem range'_drop : ∀ (len s k : ℕ), (List.range' s len).drop k = List.range' (s + k) (len - k) := by
  intro len
  induction len with
  | zero => intro s k; simp
  | succ len ih =>
    intro s k
    cases k with
    | zero => simp
    | succ k =>
      rw [List.range'_succ, List.drop_succ_cons, ih (s + 1) k]
      rw [show s + 1 + k = s + (k + 1) from by omega,
        show len + 1 - (k + 1) = len - k from by omega]

theorem rowSpec_getD (text pattern : List Char) (i : ℕ) :
    (rowSpec text pattern i).getD pattern.length 0 =
      dpSpec text pattern i pattern.length := by
  rw [rowSpec, List.getD_eq_getElem?_getD, List.getElem?_map,
    List.getElem?_range (Nat.lt_succ_self pattern.length)]
  rfl

theorem approximateMatch_iff (text pattern : List Char) (maxErrors : ℤ) :
    approximateMatch text pattern maxErrors = true ↔
      ∃ i, pattern.length ≤ i ∧ i ≤ text.length ∧
        ((dpSpec text pattern i pattern.length : ℤ) ≤ maxErrors) := by
  have hrow0 : List.range (pattern.length + 1) = rowSpec text pattern 0 := by
    rw [rowSpec]
    rw [show (List.range (pattern.length + 1)).map (dpSpec text pattern 0) =
        (List.range (pattern.length + 1)).map id from
        List.map_congr_left fun j _ => dpSpec_zero_left text pattern j]
    rw [List.map_id]
  unfold approximateMatch
  rw [hrow0, dpRows_spec text pattern text 0 (by rw [List.drop_zero])]
  dsimp only
  rw [show ((List.range' 0 (text.length + 1)).map (rowSpec text pattern)).drop pattern.length =
      ((List.range' 0 (text.length + 1)).drop pattern.length).map (rowSpec text pattern) from
      (List.map_drop ..).symm]
  rw [range'_drop (text.length + 1) 0 pattern.length]
  rw [List.any_eq_true]
  constructor
  · rintro ⟨row, hrowmem, hP⟩
    rcases List.mem_map.1 hrowmem with ⟨i, hi, rfl⟩
    rw [List.mem_range'_1] at hi
    rw [rowSpec_getD, decide_eq_true_eq] at hP
    exact ⟨i, by omega, by omega, hP⟩
  · rintro ⟨i, h1, h2, h3⟩
    refine ⟨rowSpec text pattern i,
      List.mem_map.2 ⟨i, List.mem_range'_1.2 ⟨by omega, by omega⟩, rfl⟩, ?_⟩
    rw [rowSpec_getD, decide_eq_true_eq]
    exact h3

end SearchSystem

namespace SearchSystem

/-! Zero-cost alignments are exact substring occurrences. -/

theorem suffix_concat_iff (A B : List Char) (a b : Char) :
    (∃ u, A ++ [a] = u ++ (B ++ [b])) ↔ a = b ∧ ∃ u, A = u ++ B := by
  constructor
  · rintro ⟨u, hu⟩
    rw [← List.append_assoc] at hu
    rcases List.append_inj' hu (by simp) with ⟨h1, h2⟩
    refine ⟨?_, u, h1⟩
    simpa using h2
  · rintro ⟨rfl, u, rfl⟩
    exact ⟨u, by simp⟩

theorem dpSpec_zero_iff (text pattern : List Char) :
    ∀ (i j : ℕ), i ≤ text.length → j ≤ pattern.length →
    (dpSpec text pattern i j = 0 ↔ ∃ u, text.take i = u ++ pattern.take j) := by
  intro i
  induction i with
  | zero =>
    intro j hi hj
    rw [dpSpec_zero_left]
    constructor
    · rintro rfl
      exact ⟨[], by simp⟩
    · rintro ⟨u, hu⟩
      rw [List.take_zero] at hu
      have := congrArg List.length hu
      simp only [List.length_nil, List.length_append, List.length_take] at this
      omega
  | succ i ih =>
    intro j hi hj
    cases j with
    | zero =>
      rw [dpSpec_zero_right]
      simp
    | succ j =>
      have hilt : i < text.length := by omega
      have hjlt : j < pattern.length := by omega
      have htake_t : text.take (i + 1) = text.take i ++ [text[i]] := by
        rw [List.take_succ, List.getElem?_eq_getElem hilt]
        rfl
      have htake_p : pattern.take (j + 1) = pattern.take j ++ [pattern[j]] := by
        rw [List.take_succ, List.getElem?_eq_getElem hjlt]
        rfl
      have hgd_t : text.getD i 'a' = text[i] := by
        rw [List.getD_eq_getElem?_getD, List.getElem?_eq_getElem hilt]
        rfl
      have hgd_p : pattern.getD j 'a' = pattern[j] := by
        rw [List.getD_eq_getElem?_getD, List.getElem?_eq_getElem hjlt]
        rfl
      rw [htake_t, htake_p, suffix_concat_iff]
      simp only [dpSpec, hgd_t, hgd_p]
      by_cases h : text[i] = pattern[j]
      · rw [if_pos h, ih j (by omega) (by omega)]
        simp [h]
      · rw [if_neg h]
        constructor
        · intro hc
          omega
        · rintro ⟨hab, _⟩
          exact absurd hab h

theorem isSubstring_iff_exists_take (pattern text : List Char) :
    isSubstring pattern text ↔
      ∃ i, pattern.length ≤ i ∧ i ≤ text.length ∧ ∃ u, text.take i = u ++ pattern := by
  constructor
  · rintro ⟨u, v, rfl⟩
    refine ⟨u.length + pattern.length, by omega, by simp, u, ?_⟩
    exact List.take_left' (by simp)
  · rintro ⟨i, h1, h2, u, hu⟩
    refine ⟨u, text.drop i, ?_⟩
    calc text = text.take i ++ text.drop i := (List.take_append_drop i text).symm
    _ = (u ++ pattern) ++ text.drop i := by rw [hu]
    _ = u ++ pattern ++ text.drop i := by rw [List.append_assoc]

theorem approximateMatch_zero_iff (text pattern : List Char) :
    approximateMatch text pattern 0 = true ↔ isSubstring pattern text := by
  rw [approximateMatch_iff, isSubstring_iff_exists_take]
  constructor
  · rintro ⟨i, h1, h2, h3⟩
    have hz : dpSpec text pattern i pattern.length = 0 := by omega
    refine ⟨i, h1, h2, ?_⟩
    have h4 := (dpSpec_zero_iff text pattern i pattern.length h2 (le_refl _)).1 hz
    rwa [List.take_length] at h4
  · rintro ⟨i, h1, h2, u, hu⟩
    refine ⟨i, h1, h2, ?_⟩
    have hz : dpSpec text pattern i pattern.length = 0 :=
      (dpSpec_zero_iff text pattern i pattern.length h2 (le_refl _)).2
        ⟨u, by rw [List.take_length]; exact hu⟩
    omega

/-! The recognizer accepts exactly the equal-run words. -/

theorem pdaPop_iff (s : List Char) : ∀ st : ℕ,
    pdaPop st s = true ↔ s = List.replicate st 'b' := by
  induction s with
  | nil =>
    intro st
    cases st with
    | zero => simp [pdaPop]
    | succ st => simp [pdaPop, List.replicate_succ]
  | cons c rest ih =>
    intro st
    by_cases hc : c = 'b'
    · subst hc
      cases st with
      | zero => simp [pdaPop]
      | succ st =>
        rw [show pdaPop (st + 1) ('b' :: rest) = pdaPop st rest from by simp [pdaPop]]
        rw [ih st, List.replicate_succ]
        simp
    · cases st with
      | zero => simp [pdaPop, hc]
      | succ st => simp [pdaPop, hc, List.replicate_succ]

theorem pdaPush_iff (s : List Char) : ∀ st : ℕ,
    pdaPush st s = true ↔
      ∃ n, s = List.replicate n 'a' ++ List.replicate (st + n) 'b' := by
  induction s with
  | nil =>
    intro st
    simp only [pdaPush]
    rw [pdaPop_iff [] st]
    constructor
    · intro h
      refine ⟨0, ?_⟩
      rw [h]
      simp
    · rintro ⟨n, hn⟩
      have := congrArg List.length hn
      simp only [List.length_nil, List.length_append, List.length_replicate] at this
      have hn0 : n = 0 ∧ st = 0 := by omega
      rw [hn0.2]
      rfl
  | cons c rest ih =>
    intro st
    by_cases hc : c = 'a'
    · subst hc
      rw [show pdaPush st ('a' :: rest) = pdaPush (st + 1) rest from by simp [pdaPush]]
      rw [ih (st + 1)]
      constructor
      · rintro ⟨n, hn⟩
        refine ⟨n + 1, ?_⟩
        rw [List.replicate_succ, List.cons_append, hn,
          show st + (n + 1) = st + 1 + n from by omega]
      · rintro ⟨n, hn⟩
        cases n with
        | zero =>
          exfalso
          rw [List.replicate, List.nil_append] at hn
          cases hst : st + 0 with
          | zero => rw [hst, List.replicate] at hn; exact List.cons_ne_nil _ _ hn
          | succ m =>
            rw [hst, List.replicate_succ] at hn
            exact (by decide : ¬ ('a' : Char) = 'b') (List.cons_eq_cons.1 hn).1
        | succ n =>
          rw [List.replicate_succ, List.cons_append] at hn
          refine ⟨n, ?_⟩
          rw [(List.cons_eq_cons.1 hn).2, show st + 1 + n = st + (n + 1) from by omega]
    · simp only [pdaPush, if_neg hc]
      rw [pdaPop_iff (c :: rest) st]
      constructor
      · intro h
        refine ⟨0, ?_⟩
        rw [List.replicate, List.nil_append, Nat.add_zero]
        exact h
      · rintro ⟨n, hn⟩
        cases n with
        | zero =>
          rw [List.replicate, List.nil_append, Nat.add_zero] at hn
          exact hn
        | succ n =>
          exfalso
          rw [List.replicate_succ, List.cons_append] at hn
          exact hc (List.cons_eq_cons.1 hn).1

theorem pdaSimulate_iff (s : List Char) :
    PDA.simulate s = true ↔ ∃ n, s = List.replicate n 'a' ++ List.replicate n 'b' := by
  unfold PDA.simulate
  rw [pdaPush_iff s 0]
  simp

/-! Effect of the benign `operator[]` growth on the observable transitions. -/

theorem effTrans_append_emptyEntry (k : ℕ) (tr : TransMap) :
    effTrans (tr ++ [(k, [])]) = effTrans tr := by
  funext s c
  unfold effTrans
  cases h : mapFind s tr with
  | some v => rw [mapFind_append_some s v tr _ h]
  | none =>
    rw [mapFind_append_none s tr _ h]
    by_cases hs : s = k
    · subst hs
      simp [mapFind]
    · simp [mapFind, hs]

end SearchSystem

namespace SearchSystem

/-- C1: for every literal pattern P and every test string S, simulating the
NFA built from P on S returns the same boolean as simulating the DFA
obtained by subset construction from that NFA on S. -/
theorem claim_C1 (p s : List Char) :
    nfaAccepts (regexToNFA p) s = dfaAccepts (toDFA (regexToNFA p)) s := by
  rw [nfaAccepts_chain, dfaAccepts_chain]

/-- C2: for a pattern of length L, `regexToNFA` produces exactly the states
0..L, start state 0, the single final state L, exactly the chain transition
map with one transition from i to i+1 labeled by the i-th symbol, and an
alphabet that is exactly the set of distinct symbols of the pattern; for
the empty pattern the single state 0 is both start and final. -/
theorem claim_C2 (p : List Char) :
    (regexToNFA p).states = List.range (p.length + 1) ∧
    (regexToNFA p).startState = 0 ∧
    (regexToNFA p).finalStates = [p.length] ∧
    (regexToNFA p).transitions = chainTrans 0 p ∧
    (regexToNFA p).alphabet.Nodup ∧
    (∀ c : Char, c ∈ (regexToNFA p).alphabet ↔ c ∈ p) := by
  rw [regexToNFA_eq p]
  refine ⟨rfl, rfl, rfl, rfl, ?_, ?_⟩
  · exact (sorted_foldl_setInsert p [] List.sorted_nil).nodup
  · intro c
    rw [mem_foldl_setInsert p [] c]
    simp

/-- C3, counterexample: simulating the NFA built from the pattern "a" on
the string "aa" grows its transition map by the empty entry at state 1, so
the NFA is not exactly the same value afterwards. -/
theorem claim_C3_counterexample :
    (NFA.simulate (regexToNFA ['a']) ['a', 'a']).2.transitions ≠
      (regexToNFA ['a']).transitions := by
  decide

/-- C3, amended: NFA simulation and the NFA-to-DFA conversion leave the
states, alphabet, start state and final states of an NFA built by
`regexToNFA` unchanged, and change its transition map at most by inserting
entries with no outgoing transitions, so the observable transition function
is exactly the same after the call as before. -/
theorem claim_C3_amended (p input : List Char) :
    ((NFA.simulate (regexToNFA p) input).2.states = (regexToNFA p).states ∧
     (NFA.simulate (regexToNFA p) input).2.alphabet = (regexToNFA p).alphabet ∧
     (NFA.simulate (regexToNFA p) input).2.startState = (regexToNFA p).startState ∧
     (NFA.simulate (regexToNFA p) input).2.finalStates = (regexToNFA p).finalStates ∧
     effTrans (NFA.simulate (regexToNFA p) input).2.transitions =
       effTrans (regexToNFA p).transitions) ∧
    ((nfaToDFA (regexToNFA p)).2.states = (regexToNFA p).states ∧
     (nfaToDFA (regexToNFA p)).2.alphabet = (regexToNFA p).alphabet ∧
     (nfaToDFA (regexToNFA p)).2.startState = (regexToNFA p).startState ∧
     (nfaToDFA (regexToNFA p)).2.finalStates = (regexToNFA p).finalStates ∧
     effTrans (nfaToDFA (regexToNFA p)).2.transitions =
       effTrans (regexToNFA p).transitions) := by
  constructor
  · refine ⟨rfl, rfl, rfl, rfl, ?_⟩
    show effTrans (nfaSimGo (regexToNFA p).finalStates (regexToNFA p).transitions
      [(regexToNFA p).startState] input).2 = effTrans (regexToNFA p).transitions
    rw [regexToNFA_eq p]
    exact (nfaSimGo_spec [p.length] input (chainTrans 0 p) [0]
      (keysSorted_chainTrans p 0)).2.1
  · rw [nfaToDFA_chain p]
    refine ⟨rfl, rfl, rfl, rfl, ?_⟩
    show effTrans (if p = [] then chainTrans 0 p
        else chainTrans 0 p ++ [(p.length, [])]) =
      effTrans (regexToNFA p).transitions
    rw [regexToNFA_eq p]
    by_cases hp : p = []
    · rw [if_pos hp]
    · rw [if_neg hp]
      exact effTrans_append_emptyEntry p.length (chainTrans 0 p)

/-- C4: the matcher returns true iff the dynamic-programming table of the
spec, with base cases dp(0,j) = j and dp(i,0) = 0 and the
match/substitution/insertion/deletion recurrence, reaches a value at most
maxErrors in its last column at some row between the pattern length and the
text length. -/
theorem claim_C4 (text pattern : List Char) (maxErrors : ℤ) :
    approximateMatch text pattern maxErrors = true ↔
      ∃ i, pattern.length ≤ i ∧ i ≤ text.length ∧
        ((dpSpec text pattern i pattern.length : ℤ) ≤ maxErrors) :=
  approximateMatch_iff text pattern maxErrors

/-- C5: the recognizer accepts an input string iff it consists of a run of
n letters 'a' followed by a run of n letters 'b', for some n ≥ 0. -/
theorem claim_C5 (s : List Char) :
    PDA.simulate s = true ↔ ∃ n, s = List.replicate n 'a' ++ List.replicate n 'b' :=
  pdaSimulate_iff s

/-- C6: the DFA produced by subset construction from a chain NFA has
exactly as many states as the NFA. -/
theorem claim_C6 (p : List Char) :
    (toDFA (regexToNFA p)).states.length = (regexToNFA p).states.length := by
  unfold toDFA
  rw [nfaToDFA_chain p, regexToNFA_eq p]

/-- C7: with an error budget of 0, approximate matching coincides with
exact contiguous substring containment. -/
theorem claim_C7 (text pattern : List Char) :
    approximateMatch text pattern 0 = true ↔ isSubstring pattern text :=
  approximateMatch_zero_iff text pattern

/-- C8: DFA simulation starts at the start state and follows one looked-up
transition per symbol, returning reject immediately when no transition is
recorded and accepting after the input iff the current state is final; in
particular an input containing a symbol outside the constructed DFA's
alphabet is rejected. -/
theorem claim_C8 :
    (∀ (dfa : DFA) (input : List Char), keysSorted dfa.transitions →
      dfaAccepts dfa input =
        dfaRunContract (effDTrans dfa.transitions) dfa.finalStates dfa.startState input) ∧
    (∀ (p s : List Char) (c : Char), c ∈ s → c ∉ (toDFA (regexToNFA p)).alphabet →
      dfaAccepts (toDFA (regexToNFA p)) s = false) := by
  constructor
  · intro dfa input hs
    exact (dfaSimGo_spec dfa.finalStates input dfa.transitions dfa.startState hs).1
  · intro p s c hcs hcal
    rw [dfaAccepts_chain p s, decide_eq_false_iff_not]
    intro hsp
    apply hcal
    show c ∈ (toDFA (regexToNFA p)).alphabet
    unfold toDFA
    rw [nfaToDFA_chain p]
    exact (mem_foldl_setInsert p [] c).2 (Or.inr (hsp ▸ hcs))

/-- C8, witness: the DFA built from the pattern "a" rejects the input "b",
whose symbol was never seen during construction. -/
theorem claim_C8_witness :
    dfaAccepts (toDFA (regexToNFA ['a'])) ['b'] = false :=
  claim_C8.2 ['a'] ['b'] 'b' (by decide) (by decide)

/-- C9: the NFA built from the pattern "ab" accepts exactly the string
"ab", rejecting "a", "abc", "ba" and the empty string; the NFA built from
the empty pattern accepts only the empty string. -/
theorem claim_C9 :
    (∀ s : List Char, nfaAccepts (regexToNFA ['a', 'b']) s = true ↔ s = ['a', 'b']) ∧
    nfaAccepts (regexToNFA ['a', 'b']) ['a'] = false ∧
    nfaAccepts (regexToNFA ['a', 'b']) ['a', 'b', 'c'] = false ∧
    nfaAccepts (regexToNFA ['a', 'b']) ['b', 'a'] = false ∧
    nfaAccepts (regexToNFA ['a', 'b']) [] = false ∧
    (∀ s : List Char, nfaAccepts (regexToNFA []) s = true ↔ s = []) := by
  refine ⟨?_, by decide, by decide, by decide, by decide, ?_⟩
  · intro s
    rw [nfaAccepts_chain]
    simp
  · intro s
    rw [nfaAccepts_chain]
    simp

/-- C10: a pattern strictly longer than the text is never approximately
matched, whatever the error budget: the final scan of the matcher is over
rows from the pattern length to the text length, which is empty then. -/
theorem claim_C10 (text pattern : List Char) (maxErrors : ℤ)
    (h : text.length < pattern.length) :
    approximateMatch text pattern maxErrors = false := by
  rw [Bool.eq_false_iff]
  intro hc
  rcases (approximateMatch_iff text pattern maxErrors).1 hc with ⟨i, h1, h2, _⟩
  omega

/-- C10, witness: the pattern "a" is longer than the empty text and is
rejected even with a huge error budget. -/
theorem claim_C10_witness :
    approximateMatch [] ['a'] 1000000 = false :=
  claim_C10 [] ['a'] 1000000 (by decide)

end SearchSystem
